import Mathlib

/-!
Verification of `packages/compiler-cli/ngcc/src/utils.ts`.

The file embeds the utilities of `utils.ts` and proves the specified
properties about them:

* `findAll` / `findAllVisitor` — generic tree search with the
  "no nested matches" policy;
* `PartiallyOrderedList` — the ordered-tagged sequence and its
  tag-preserving `map` and `slice`;
* `isDefined` — the `undefined`/`null` guard;
* `resolveFileWithPostfixes` — first-postfix file resolution;
* `stripExtension` — the `/\..+$/` suffix strip.
-/

namespace Ngcc

/-! ## Trees

`ts.Node` is an externally-defined tree vertex with a stable child
enumeration (`forEachChild`).  We embed it as a finite rose tree carrying an
opaque label; node identity (reference identity in the program) is modelled
by requiring the nodes of a tree to be pairwise distinct values where a
claim depends on identity. -/

/-- A syntax-tree node: a label and the children in their natural
enumeration order. -/
inductive Node : Type where
  | mk (label : Nat) (children : List Node)

/-- The children of a node, in enumeration order (`forEachChild`). -/
def Node.children : Node → List Node
  | .mk _ cs => cs

/-- The label of a node. -/
def Node.label : Node → Nat
  | .mk l _ => l

mutual

/-- Boolean equality on nodes. -/
def Node.beq : Node → Node → Bool
  | .mk l cs, .mk l2 cs2 => l == l2 && Node.beqList cs cs2

/-- Boolean equality on lists of nodes. -/
def Node.beqList : List Node → List Node → Bool
  | [], [] => true
  | c :: cs, d :: ds => Node.beq c d && Node.beqList cs ds
  | _, _ => false

end

mutual

theorem Node.beq_iff : ∀ a b : Node, Node.beq a b = true ↔ a = b
  | .mk l cs, .mk l2 cs2 => by
    simp only [Node.beq, Bool.and_eq_true, beq_iff_eq, Node.mk.injEq]
    exact and_congr Iff.rfl (Node.beqList_iff cs cs2)

theorem Node.beqList_iff : ∀ a b : List Node, Node.beqList a b = true ↔ a = b
  | [], [] => by simp [Node.beqList]
  | [], _ :: _ => by simp [Node.beqList]
  | _ :: _, [] => by simp [Node.beqList]
  | c :: cs, d :: ds => by
    simp only [Node.beqList, Bool.and_eq_true, List.cons.injEq]
    exact and_congr (Node.beq_iff c d) (Node.beqList_iff cs ds)

end

instance : DecidableEq Node := fun a b =>
  decidable_of_iff (Node.beq a b = true) (Node.beq_iff a b)

/-- Strong induction over nodes: to prove a property of every node it
suffices to prove it of a node assuming it of all its children. -/
def Node.strongInduction {motive : Node → Prop}
    (ind : ∀ l cs, (∀ c ∈ cs, motive c) → motive (Node.mk l cs)) :
    ∀ n, motive n
  | .mk l cs => ind l cs (fun c hc => Node.strongInduction ind c)
termination_by n => sizeOf n
decreasing_by
  have h := List.sizeOf_lt_of_mem hc
  simp only [Node.mk.sizeOf_spec]
  omega

mutual

/-- The recursive visitor of `findAll` (`utils.ts` lines 60–66): when `test n`
holds the node is pushed and its children are **not** visited; otherwise the
visitor recurses into each child via `forEachChild`.  The imperative push into
the shared `nodes` array is embedded as returning the pushed nodes in push
order. -/
def findAllVisitor (test : Node → Bool) : Node → List Node
  | .mk l cs =>
    if test (.mk l cs) then [Node.mk l cs]
    else findAllChildren test cs

/-- `n.forEachChild(child => findAllVisitor(child))`: the visitor applied to
each child in enumeration order, results concatenated in push order. -/
def findAllChildren (test : Node → Bool) : List Node → List Node
  | [] => []
  | c :: cs => findAllVisitor test c ++ findAllChildren test cs

end

/-- `findAll` (`utils.ts` lines 55–67): runs the visitor from the start node
and returns the collected nodes. -/
def findAll (node : Node) (test : Node → Bool) : List Node :=
  findAllVisitor test node

mutual

/-- The depth-first pre-order enumeration of a tree's nodes: the node itself,
then the pre-orders of its children in enumeration order. -/
def preorder : Node → List Node
  | .mk l cs => Node.mk l cs :: preorderChildren cs

/-- The concatenated pre-orders of a list of sibling subtrees. -/
def preorderChildren : List Node → List Node
  | [] => []
  | c :: cs => preorder c ++ preorderChildren cs

end

/-- `d` is a strict descendant of `n`: it occurs in the subtree of one of
`n`'s children. -/
def Node.strictDescendant (d n : Node) : Prop :=
  d ∈ preorderChildren n.children

instance (d n : Node) : Decidable (Node.strictDescendant d n) := by
  unfold Node.strictDescendant
  infer_instance

theorem mem_preorderChildren {x : Node} {cs : List Node} :
    x ∈ preorderChildren cs ↔ ∃ c ∈ cs, x ∈ preorder c := by
  induction cs with
  | nil => simp [preorderChildren]
  | cons c cs ih => simp [preorderChildren, ih]

theorem self_mem_preorder (n : Node) : n ∈ preorder n := by
  cases n with
  | mk l cs => simp [preorder]

theorem mem_preorder_of_strictDescendant {d n : Node}
    (h : Node.strictDescendant d n) : d ∈ preorder n := by
  cases n with
  | mk l cs =>
    simp only [preorder, List.mem_cons]
    exact Or.inr h

/-- The subtree of a node of a tree is contained in the tree: membership in
pre-orders is transitive. -/
theorem preorder_trans :
    ∀ n : Node, ∀ y ∈ preorder n, ∀ x ∈ preorder y, x ∈ preorder n := by
  intro n
  induction n using Node.strongInduction with
  | ind l cs ih =>
    intro y hy x hx
    simp only [preorder, List.mem_cons] at hy ⊢
    rcases hy with rfl | hy
    · simpa [preorder] using hx
    · rcases mem_preorderChildren.mp hy with ⟨c, hc, hyc⟩
      exact Or.inr (mem_preorderChildren.mpr ⟨c, hc, ih c hc y hyc x hx⟩)

theorem mem_findAllChildren {test : Node → Bool} {x : Node} {cs : List Node} :
    x ∈ findAllChildren test cs ↔ ∃ c ∈ cs, x ∈ findAllVisitor test c := by
  induction cs with
  | nil => simp [findAllChildren]
  | cons c cs ih => simp [findAllChildren, ih]

/-- Every node collected by the visitor satisfies the test. -/
theorem findAllVisitor_sat {test : Node → Bool} :
    ∀ n : Node, ∀ x ∈ findAllVisitor test n, test x = true := by
  intro n
  induction n using Node.strongInduction with
  | ind l cs ih =>
    intro x hx
    by_cases h : test (Node.mk l cs) = true
    · simp only [findAllVisitor, h, if_pos, List.mem_singleton] at hx
      subst hx; exact h
    · simp only [findAllVisitor, h, if_neg, Bool.false_eq_true, not_false_iff] at hx
      rcases mem_findAllChildren.mp hx with ⟨c, hc, hxc⟩
      exact ih c hc x hxc

/-- The visitor's result is a sublist of the pre-order enumeration: collected
nodes appear in depth-first pre-order traversal order. -/
theorem findAllVisitor_sublist (test : Node → Bool) :
    ∀ n : Node, List.Sublist (findAllVisitor test n) (preorder n) := by
  intro n
  induction n using Node.strongInduction with
  | ind l cs ih =>
    by_cases h : test (Node.mk l cs) = true
    · simp only [findAllVisitor, h, if_pos, preorder]
      exact List.cons_sublist_cons.mpr (List.nil_sublist _)
    · simp only [findAllVisitor, h, if_neg, Bool.false_eq_true, not_false_iff,
        preorder]
      refine List.Sublist.cons _ ?_
      clear h
      induction cs with
      | nil => simp [findAllChildren, preorderChildren]
      | cons c cs ihcs =>
        simp only [findAllChildren, preorderChildren]
        exact List.Sublist.append (ih c (by simp))
          (ihcs (fun c hc => ih c (by simp [hc])))

theorem findAllVisitor_subset_preorder {test : Node → Bool} {n x : Node}
    (hx : x ∈ findAllVisitor test n) : x ∈ preorder n :=
  (findAllVisitor_sublist test n).subset hx

/-- Two collected nodes never lie on one ancestor line: the relation every
pair of the visitor's result satisfies. -/
def NoNest (a b : Node) : Prop :=
  ¬ Node.strictDescendant a b ∧ ¬ Node.strictDescendant b a

/-- Sibling subtrees with disjoint node sets yield cross-free results: the
list form of the pairwise property. -/
theorem findAllChildren_pairwise {test : Node → Bool} :
    ∀ cs : List Node,
      (∀ c ∈ cs, (preorder c).Nodup → (findAllVisitor test c).Pairwise NoNest) →
      (preorderChildren cs).Nodup →
      (findAllChildren test cs).Pairwise NoNest := by
  intro cs
  induction cs with
  | nil => intro _ _; simp [findAllChildren]
  | cons c cs ihcs =>
    intro ih hnodup
    simp only [findAllChildren]
    simp only [preorderChildren, List.nodup_append] at hnodup
    rw [List.pairwise_append]
    refine ⟨ih c (by simp) hnodup.1,
      ihcs (fun d hd => ih d (by simp [hd])) hnodup.2.1, ?_⟩
    intro x hx y hy
    have hxc : x ∈ preorder c := findAllVisitor_subset_preorder hx
    rcases mem_findAllChildren.mp hy with ⟨d, hd, hyd⟩
    have hyd' : y ∈ preorder d := findAllVisitor_subset_preorder hyd
    constructor
    · intro hdesc
      have hxy : x ∈ preorder y := mem_preorder_of_strictDescendant hdesc
      have : x ∈ preorder d := preorder_trans d y hyd' x hxy
      exact hnodup.2.2 hxc (mem_preorderChildren.mpr ⟨d, hd, this⟩)
    · intro hdesc
      have hyx : y ∈ preorder x := mem_preorder_of_strictDescendant hdesc
      have : y ∈ preorder c := preorder_trans c x hxc y hyx
      exact hnodup.2.2 this (mem_preorderChildren.mpr ⟨d, hd, hyd'⟩)

/-- In a tree whose nodes are pairwise distinct (reference identity), the
visitor never collects both a node and one of its strict descendants. -/
theorem findAllVisitor_pairwise {test : Node → Bool} :
    ∀ n : Node, (preorder n).Nodup →
      (findAllVisitor test n).Pairwise NoNest := by
  intro n
  induction n using Node.strongInduction with
  | ind l cs ih =>
    intro hnodup
    by_cases h : test (Node.mk l cs) = true
    · simp [findAllVisitor, h]
    · simp only [findAllVisitor, h, if_neg, Bool.false_eq_true, not_false_iff]
      simp only [preorder, List.nodup_cons] at hnodup
      exact findAllChildren_pairwise cs ih hnodup.2

mutual

/-- The number of nodes of a tree. -/
def Node.size : Node → Nat
  | .mk _ cs => 1 + Node.sizeList cs

/-- The total number of nodes of a list of sibling subtrees. -/
def Node.sizeList : List Node → Nat
  | [] => 0
  | c :: cs => Node.size c + Node.sizeList cs

end

mutual

/-- The number of nodes on which the visitor invokes `test`: one for the node
itself, plus the children's counts only when the node did not match (a match
stops the descent). -/
def visitCount (test : Node → Bool) : Node → Nat
  | .mk l cs => 1 + (if test (.mk l cs) then 0 else visitCountChildren test cs)

/-- `visitCount` summed over a list of sibling subtrees. -/
def visitCountChildren (test : Node → Bool) : List Node → Nat
  | [] => 0
  | c :: cs => visitCount test c + visitCountChildren test cs

end

theorem preorderChildren_length {cs : List Node}
    (h : ∀ c ∈ cs, (preorder c).length = Node.size c) :
    (preorderChildren cs).length = Node.sizeList cs := by
  induction cs with
  | nil => rfl
  | cons c cs ihcs =>
    simp only [preorderChildren, List.length_append, Node.sizeList,
      h c (by simp), ihcs (fun d hd => h d (by simp [hd]))]

theorem preorder_length : ∀ n : Node, (preorder n).length = Node.size n := by
  intro n
  induction n using Node.strongInduction with
  | ind l cs ih =>
    simp only [preorder, List.length_cons, Node.size,
      preorderChildren_length ih]
    omega

theorem visitCountChildren_le {test : Node → Bool} {cs : List Node}
    (h : ∀ c ∈ cs, visitCount test c ≤ Node.size c) :
    visitCountChildren test cs ≤ Node.sizeList cs := by
  induction cs with
  | nil => simp [visitCountChildren, Node.sizeList]
  | cons c cs ihcs =>
    simp only [visitCountChildren, Node.sizeList]
    exact Nat.add_le_add (h c (by simp)) (ihcs (fun d hd => h d (by simp [hd])))

theorem visitCount_le_size (test : Node → Bool) :
    ∀ n : Node, visitCount test n ≤ Node.size n := by
  intro n
  induction n using Node.strongInduction with
  | ind l cs ih =>
    simp only [visitCount, Node.size]
    by_cases h : test (Node.mk l cs) = true
    · simp [h]
    · simp only [h, if_neg, Bool.false_eq_true, not_false_iff, if_false]
      exact Nat.add_le_add_left (visitCountChildren_le ih) 1

theorem findAllChildren_eq_nil {test : Node → Bool} {cs : List Node}
    (h : ∀ c ∈ cs, findAllVisitor test c = []) :
    findAllChildren test cs = [] := by
  induction cs with
  | nil => rfl
  | cons c cs ihcs =>
    simp [findAllChildren, h c (by simp), ihcs (fun d hd => h d (by simp [hd]))]

theorem findAllVisitor_const_false :
    ∀ n : Node, findAllVisitor (fun _ => false) n = [] := by
  intro n
  induction n using Node.strongInduction with
  | ind l cs ih =>
    simp only [findAllVisitor, Bool.false_eq_true, if_neg, not_false_iff]
    exact findAllChildren_eq_nil ih

/-! ## A sample searched tree, used to instantiate hypotheses -/

/-- A concrete tree with pairwise distinct nodes: `0(1, 2(3))`. -/
def sampleTree : Node := Node.mk 0 [Node.mk 1 [], Node.mk 2 [Node.mk 3 []]]

/-- A concrete predicate: the label is positive. -/
def samplePred : Node → Bool := fun n => decide (1 ≤ n.label)

/-- A second spelling of `samplePred`: the label is not zero. -/
def samplePred2 : Node → Bool := fun n => !(n.label == 0)

/-! ## The claims about `findAll` -/

/-- C1: on a finite acyclic tree whose nodes are pairwise distinct (reference
identity), `findAll` returns only nodes satisfying the predicate, lists them
in depth-first pre-order traversal order (a sublist of the pre-order
enumeration, children in enumeration order), and no returned node is a strict
descendant of another returned node. -/
theorem findAll_no_nested_matches (t : Node) (P : Node → Bool)
    (hid : (preorder t).Nodup) :
    (∀ x ∈ findAll t P, P x = true) ∧
    List.Sublist (findAll t P) (preorder t) ∧
    (findAll t P).Pairwise NoNest :=
  ⟨fun x hx => findAllVisitor_sat t x hx,
   findAllVisitor_sublist P t,
   findAllVisitor_pairwise t hid⟩

/-- C1, instantiated: the property holds of the sample tree and predicate. -/
theorem findAll_no_nested_matches_witness :
    (∀ x ∈ findAll sampleTree samplePred, samplePred x = true) ∧
    List.Sublist (findAll sampleTree samplePred) (preorder sampleTree) ∧
    (findAll sampleTree samplePred).Pairwise NoNest :=
  findAll_no_nested_matches sampleTree samplePred (by decide)

/-- C2: the always-false predicate yields the empty sequence; the always-true
predicate yields exactly the root as sole result, and visits no node other
than the root. -/
theorem findAll_const_pred (t : Node) :
    findAll t (fun _ => false) = [] ∧
    findAll t (fun _ => true) = [t] ∧
    visitCount (fun _ => true) t = 1 := by
  refine ⟨findAllVisitor_const_false t, ?_, ?_⟩ <;>
    cases t with
    | mk l cs => simp [findAll, findAllVisitor, visitCount]

/-- C6: `findAll` is deterministic and side-effect free.  The embedding is a
pure function of the root and the predicate alone — the tree is a value, so
no invocation can mutate it — and two invocations with the same root and
extensionally equal pure predicates return equal result sequences. -/
theorem findAll_deterministic (t : Node) (P Q : Node → Bool)
    (h : ∀ n, P n = Q n) :
    findAll t P = findAll t Q := by
  rw [funext h]

/-- C6, instantiated: the two spellings of the sample predicate give equal
results on the sample tree. -/
theorem findAll_deterministic_witness :
    findAll sampleTree samplePred = findAll sampleTree samplePred2 :=
  findAll_deterministic sampleTree samplePred samplePred2 (by
    intro n
    cases hl : n.label with
    | zero => simp [samplePred, samplePred2, hl]
    | succ k => simp [samplePred, samplePred2, hl])

/-- C7: `findAll` terminates on every finite acyclic tree — the visitor is a
total function in this embedding — and its work is bounded by the tree size:
the number of visited nodes and the number of returned nodes are each at most
`Node.size t`, which is the number of nodes of the tree. -/
theorem findAll_bounded (t : Node) (P : Node → Bool) :
    visitCount P t ≤ Node.size t ∧
    (findAll t P).length ≤ Node.size t ∧
    (preorder t).length = Node.size t :=
  ⟨visitCount_le_size P t,
   preorder_length t ▸ (findAllVisitor_sublist P t).length_le,
   preorder_length t⟩

/-! ## `PartiallyOrderedList` (`utils.ts` lines 27–33)

The TypeScript interface extends `Array<T>` with the literal-typed marker
field `_partiallyOrdered: true` and re-declares `map` and `slice` to return
the tagged type.  The embedding wraps a plain list together with the marker
field and the proof that it holds `true` (the literal type): producing a
value of the type requires explicitly supplying the tag, a plain list alone
is not convertible, while the wrapped plain list is always extractable. -/

structure PartiallyOrderedList (T : Type) where
  toList : List T
  _partiallyOrdered : Bool
  tagged : _partiallyOrdered = true

/-- Modelled from the spec: the explicit "assert ordered" construction (the
`as PartiallyOrderedList<T>` cast used once by the topological-sort
collaborator, which is outside this file); it wraps a plain list and
produces the ordered tag. -/
def asPartiallyOrderedList {T : Type} (l : List T) : PartiallyOrderedList T :=
  ⟨l, true, rfl⟩

/-- `map` of the interface: `Array.prototype.map` under the re-declared
return type, specialized to a pure per-element transform. -/
def PartiallyOrderedList.map {T U : Type} (L : PartiallyOrderedList T)
    (f : T → U) : PartiallyOrderedList U :=
  ⟨L.toList.map f, true, rfl⟩

/-- `slice` of the interface: `Array.prototype.slice` under the re-declared
return type.  `slice(start, stop)` copies the elements at indices
`start .. stop-1` (clamped to the array's bounds). -/
def PartiallyOrderedList.slice {T : Type} (L : PartiallyOrderedList T)
    (start stop : Nat) : PartiallyOrderedList T :=
  ⟨(L.toList.drop start).take (stop - start), true, rfl⟩

/-- C3: `map` keeps the length, maps each position through `f` with no
reordering (position `i` of the result is `f` of position `i` of the input),
and the result carries the ordered tag. -/
theorem pol_map_spec {T U : Type} (L : PartiallyOrderedList T) (f : T → U) :
    (L.map f).toList.length = L.toList.length ∧
    (∀ i : Nat, (L.map f).toList[i]? = (L.toList[i]?).map f) ∧
    (L.map f)._partiallyOrdered = true := by
  refine ⟨by simp [PartiallyOrderedList.map], fun i => ?_, rfl⟩
  simp [PartiallyOrderedList.map]

/-- C4: on a valid contiguous range `[i, j)`, `slice` returns exactly the
plain values at positions `i .. j-1`, carries the ordered tag, and slicing
the full range returns a value equal to the list itself. -/
theorem pol_slice_spec {T : Type} (L : PartiallyOrderedList T) (i j : Nat)
    (hij : i ≤ j) (hj : j ≤ L.toList.length) :
    (L.slice i j).toList.length = j - i ∧
    (∀ k : Nat, k < j - i → (L.slice i j).toList[k]? = L.toList[i + k]?) ∧
    (L.slice i j)._partiallyOrdered = true ∧
    L.slice 0 L.toList.length = L := by
  refine ⟨?_, fun k hk => ?_, rfl, ?_⟩
  · simp only [PartiallyOrderedList.slice, List.length_take, List.length_drop]
    omega
  · simp only [PartiallyOrderedList.slice]
    rw [List.getElem?_take, if_pos hk, List.getElem?_drop]
  · cases L with
    | mk l tag htag =>
      subst htag
      simp [PartiallyOrderedList.slice, List.take_length]

/-- C4, instantiated: slicing `[10, 20, 30]` over `[1, 3)`. -/
theorem pol_slice_spec_witness :
    ((asPartiallyOrderedList [10, 20, 30]).slice 1 3).toList.length = 3 - 1 ∧
    (∀ k : Nat, k < 3 - 1 →
      ((asPartiallyOrderedList [10, 20, 30]).slice 1 3).toList[k]? =
        (asPartiallyOrderedList [10, 20, 30]).toList[1 + k]?) ∧
    ((asPartiallyOrderedList [10, 20, 30]).slice 1 3)._partiallyOrdered
      = true ∧
    (asPartiallyOrderedList [10, 20, 30]).slice 0
        (asPartiallyOrderedList [10, 20, 30]).toList.length
      = asPartiallyOrderedList [10, 20, 30] :=
  pol_slice_spec (asPartiallyOrderedList [10, 20, 30]) 1 3
    (by decide) (by decide)

/-- C5: the ordered tag is a capability.  Every value of the type carries the
tag `true` (the literal field type); every value is exactly the explicit
"assert ordered" construction applied to its own plain list, so the explicit
constructor is the sole producer up to observation; `map` and `slice` of a
tagged value keep the tag; and the reverse conversion to a plain list
(`toList`, the `Array<T>` supertype view) is total, always allowed. -/
theorem pol_tag_capability (T U : Type) (f : T → U) :
    (∀ L : PartiallyOrderedList T, L._partiallyOrdered = true) ∧
    (∀ L : PartiallyOrderedList T, asPartiallyOrderedList L.toList = L) ∧
    (∀ L : PartiallyOrderedList T, (L.map f)._partiallyOrdered = true) ∧
    (∀ L : PartiallyOrderedList T, ∀ i j : Nat,
      (L.slice i j)._partiallyOrdered = true) := by
  refine ⟨fun L => L.tagged, fun L => ?_, fun L => rfl, fun L i j => rfl⟩
  cases L with
  | mk l tag htag =>
    subst htag
    rfl

/-! ## `isDefined` (`utils.ts` lines 41–43) -/

/-- A TypeScript value of type `T | undefined | null`. -/
inductive TsValue (T : Type) where
  | undef
  | null
  | val (t : T)

/-- `value !== undefined`, negated: is the value the literal `undefined`? -/
def tsIsUndefined {T : Type} : TsValue T → Bool
  | .undef => true
  | _ => false

/-- `value !== null`, negated: is the value the literal `null`? -/
def tsIsNull {T : Type} : TsValue T → Bool
  | .null => true
  | _ => false

/-- `isDefined`: `(value !== undefined) && (value !== null)`. -/
def isDefined {T : Type} (value : TsValue T) : Bool :=
  (!tsIsUndefined value) && (!tsIsNull value)

/-- C8: `isDefined` returns `true` exactly on values that are neither
`undefined` nor `null`, i.e. exactly when the value is some `t : T` — the
refinement to `T`. -/
theorem isDefined_iff {T : Type} (v : TsValue T) :
    isDefined v = true ↔ ∃ t : T, v = TsValue.val t := by
  cases v <;> simp [isDefined, tsIsUndefined, tsIsNull]

/-! ## `resolveFileWithPostfixes` (`utils.ts` lines 99–108) -/

/-- The result of `fs.stat`: the one field the code reads. -/
structure FileStats where
  isFile : Bool

/-- Modelled from the spec: the file-system abstraction is an out-of-scope
external collaborator consumed through the narrow interface of
existence/stat queries; only the two queries the code makes are modelled. -/
structure FileSystem where
  fsExists : String → Bool
  stat : String → FileStats

/-- Modelled from the spec: `absoluteFrom` of the external file-system
component brands an already-rooted path string as an `AbsoluteFsPath`; on
the strings this file feeds it — an absolute path with a postfix appended —
it returns that string, so it is embedded as the identity. -/
def absoluteFrom (path : String) : String :=
  path

/-- `resolveFileWithPostfixes`: try `path + postFix` for each postfix in
order; return the first representing an existing file, else `null`. -/
def resolveFileWithPostfixes (fs : FileSystem) (path : String) :
    List String → Option String
  | [] => none
  | postFix :: rest =>
    let testPath := absoluteFrom (path ++ postFix)
    if fs.fsExists testPath && (fs.stat testPath).isFile then some testPath
    else resolveFileWithPostfixes fs path rest

/-- Does the postfix yield an existing file? (the loop's test). -/
def postfixResolves (fs : FileSystem) (path postFix : String) : Bool :=
  fs.fsExists (absoluteFrom (path ++ postFix)) &&
    (fs.stat (absoluteFrom (path ++ postFix))).isFile

/-- C9: the postfixes are tried strictly in the order given — the result is
the path formed from `path` plus the **first** postfix whose test path the
file system reports as an existing file — and the result is `null` exactly
when no postfix in the list yields such a file (so in particular on the
empty list). -/
theorem resolveFileWithPostfixes_spec (fs : FileSystem) (path : String)
    (postFixes : List String) :
    resolveFileWithPostfixes fs path postFixes =
      (postFixes.find? (postfixResolves fs path)).map
        (fun pf => absoluteFrom (path ++ pf)) ∧
    (resolveFileWithPostfixes fs path postFixes = none ↔
      ∀ pf ∈ postFixes, postfixResolves fs path pf = false) := by
  have main : resolveFileWithPostfixes fs path postFixes =
      (postFixes.find? (postfixResolves fs path)).map
        (fun pf => absoluteFrom (path ++ pf)) := by
    induction postFixes with
    | nil => rfl
    | cons pf rest ih =>
      by_cases h : postfixResolves fs path pf = true
      · rw [List.find?_cons_of_pos _ h]
        simp only [postfixResolves] at h
        simp only [resolveFileWithPostfixes]
        rw [if_pos h]
        rfl
      · rw [List.find?_cons_of_neg _ h]
        simp only [postfixResolves] at h
        simp only [resolveFileWithPostfixes]
        rw [if_neg h]
        exact ih
  refine ⟨main, ?_⟩
  rw [main]
  simp [List.find?_eq_none]

/-! ## `stripExtension` (`utils.ts` lines 121–123)

`fileName.replace(/\..+$/, '')`: replace the leftmost match of the regex by
the empty string.  In a JavaScript regex without the `s` flag, `.` matches
any character except a line terminator, and `$` without the `m` flag matches
only at the very end of the string, so the regex matches at a position
exactly when it holds a `'.'` whose remainder to the end of the string is
nonempty and free of line terminators. -/

/-- `.` of a JavaScript regex: any character except a line terminator
(`\n`, `\r`, U+2028, U+2029). -/
def jsRegexDot (c : Char) : Bool :=
  !(c == '\n' || c == '\r' || c == '\u2028' || c == '\u2029')

/-- Does `/\..+$/` match the whole suffix `l` of the subject: a dot, then at
least one character each matched by `.`, running to the end. -/
def extMatch : List Char → Bool
  | [] => false
  | c :: rest => c == '.' && !rest.isEmpty && rest.all jsRegexDot

/-- `replace(/\..+$/, '')` over the character list: cut at the leftmost
position where the regex matches (through to the end, by the anchor); with
no match return the input unchanged. -/
def stripExtGo : List Char → List Char
  | [] => []
  | c :: rest => if extMatch (c :: rest) then [] else c :: stripExtGo rest

/-- `stripExtension`. -/
def stripExtension (fileName : String) : String :=
  ⟨stripExtGo fileName.data⟩

/-- C10, counterexample: the name `"a.\nb"` contains a `'.'` followed by at
least one character, so the claim says the suffix from that dot is removed,
giving `"a"` — but `.` in the regex does not match the newline, `/\..+$/`
has no match, and the code returns the input unchanged. -/
theorem stripExtension_newline_cex :
    stripExtension "a.\nb" = "a.\nb" ∧ stripExtension "a.\nb" ≠ "a" := by
  constructor <;> decide

/-- The leftmost-match characterization of the cut: either no suffix of the
input matches `/\..+$/` and the result is the input, or the input splits as
`t ++ u` with `u` the matching suffix of minimal start position and the
result is `t`. -/
theorem stripExtGo_leftmost (s : List Char) :
    (stripExtGo s = s ∧ ∀ t u : List Char, s = t ++ u → extMatch u = false) ∨
    (∃ t u : List Char, s = t ++ u ∧ extMatch u = true ∧ stripExtGo s = t ∧
      ∀ t2 u2 : List Char, s = t2 ++ u2 → extMatch u2 = true →
        t.length ≤ t2.length) := by
  induction s with
  | nil =>
    left
    refine ⟨rfl, fun t u htu => ?_⟩
    rcases List.append_eq_nil.mp htu.symm with ⟨rfl, rfl⟩
    rfl
  | cons c rest ih =>
    by_cases h : extMatch (c :: rest) = true
    · right
      refine ⟨[], c :: rest, rfl, h, by simp [stripExtGo, h], ?_⟩
      intro t2 u2 _ _
      exact Nat.zero_le _
    · have hgo : stripExtGo (c :: rest) = c :: stripExtGo rest := by
        simp [stripExtGo, h]
      rcases ih with ⟨h1, h2⟩ | ⟨t, u, heq, hm, hres, hmin⟩
      · left
        refine ⟨by rw [hgo, h1], fun t u htu => ?_⟩
        cases t with
        | nil =>
          simp only [List.nil_append] at htu
          subst htu
          exact Bool.eq_false_iff.mpr h
        | cons c' t' =>
          simp only [List.cons_append, List.cons.injEq] at htu
          exact h2 t' u htu.2
      · right
        refine ⟨c :: t, u, by simp [heq], hm, by rw [hgo, hres], ?_⟩
        intro t2 u2 htu hm2
        cases t2 with
        | nil =>
          simp only [List.nil_append] at htu
          subst htu
          exact absurd hm2 h
        | cons c' t2' =>
          simp only [List.cons_append, List.cons.injEq] at htu
          simpa using Nat.succ_le_succ (hmin t2' u2 htu.2 hm2)

/-- C10 (amended): `stripExtension` removes the suffix starting at the first
`'.'` that is followed by at least one character and by no line terminator
before the end of the string, through the end of the string; when no such
`'.'` exists (no dot at all, a bare trailing dot, or every candidate suffix
interrupted by a line terminator — `extMatch` is exactly "a dot, then one or
more characters none a line terminator, to the end") the input is returned
unchanged.  So `"a.b.c"` still becomes `"a"`, and a name with no matching
dot is unchanged. -/
theorem stripExtension_amended (s : String) :
    (stripExtension s = s ∧
      ∀ t u : List Char, s.data = t ++ u → extMatch u = false) ∨
    (∃ t u : List Char, s.data = t ++ u ∧ extMatch u = true ∧
      (stripExtension s).data = t ∧
      ∀ t2 u2 : List Char, s.data = t2 ++ u2 → extMatch u2 = true →
        t.length ≤ t2.length) := by
  rcases stripExtGo_leftmost s.data with ⟨h1, h2⟩ | ⟨t, u, heq, hm, hres, hmin⟩
  · left
    refine ⟨?_, h2⟩
    cases s with
    | mk data => exact congrArg String.mk h1
  · right
    exact ⟨t, u, heq, hm, hres, hmin⟩

end Ngcc
